import Mathlib

/-!
Verification of the EBeamSim energy-deposition aggregation and PSF pipeline.

The definitions below are a shallow embedding of the C++ sources
`src/actions/src/EventAction.cc`, `src/actions/src/RunAction.cc` and the
constants of `src/common/include/EBLConstants.hh`.  `G4double` values are
modelled as real numbers (so the NaN/Infinity validation branches of the
source are vacuous here), `G4int` as `Int`, and lengths are expressed in
nanometers (the source stores them in Geant4 internal units; every
comparison and ratio in the embedded functions is invariant under that
global change of scale).
-/

namespace EBeamSim

/-- `EBL::PSF::NUM_RADIAL_BINS` (EBLConstants.hh): 150. -/
abbrev NUM_RADIAL_BINS : ℕ := 150

/-- `EventAction::NUM_DEPTH_BINS` = `RunAction` depth-bin count: 100. -/
abbrev NUM_DEPTH_BINS : ℕ := 100

/-- `EBL::PSF::MIN_RADIUS` = 0.5 nm. -/
noncomputable def MIN_RADIUS : ℝ := 0.5

/-- `EBL::PSF::MAX_RADIUS` = 100 micrometer = 100000 nm. -/
noncomputable def MAX_RADIUS : ℝ := 100000

/-- Truncation toward zero, the semantics of C++ `static_cast<G4int>` on a
floating value. -/
noncomputable def truncToInt (x : ℝ) : ℤ :=
  if x < 0 then -⌊-x⌋ else ⌊x⌋

/-- The local `logRatio` of `EventAction::GetLogBin`:
`log(radius / MIN_RADIUS) / log(MAX_RADIUS / MIN_RADIUS)`. -/
noncomputable def logRatio (radius : ℝ) : ℝ :=
  Real.log (radius / MIN_RADIUS) / Real.log (MAX_RADIUS / MIN_RADIUS)

/-- `EventAction::GetLogBin` (EventAction.cc lines 131-156), in the
logarithmic mode that is active because `EBL::PSF::USE_LOG_BINNING = true`. -/
noncomputable def GetLogBin (radius : ℝ) : ℤ :=
  if radius ≤ 0 then -1
  else if radius < MIN_RADIUS then 0
  else if MAX_RADIUS ≤ radius then (NUM_RADIAL_BINS : ℤ) - 1
  else
    let bin := truncToInt (logRatio radius * ((NUM_RADIAL_BINS : ℝ) - 1))
    if bin < 0 then 0
    else if (NUM_RADIAL_BINS : ℤ) ≤ bin then (NUM_RADIAL_BINS : ℤ) - 1
    else bin

/-- `std::log(EBL::PSF::MIN_RADIUS)` as used by the binning helpers. -/
noncomputable def logMin : ℝ := Real.log MIN_RADIUS

/-- `std::log(EBL::PSF::MAX_RADIUS)`. -/
noncomputable def logMax : ℝ := Real.log MAX_RADIUS

/-- The per-bin logarithmic step `(logMax - logMin) / NUM_RADIAL_BINS`
used by `GetBinRadius` and `GetBinBoundaries` (note: the divisor is `N`,
not the `N - 1` used inside `GetLogBin`). -/
noncomputable def logStep : ℝ := (logMax - logMin) / (NUM_RADIAL_BINS : ℝ)

/-- `RunAction::GetBinRadius` (RunAction.cc lines 233-252), logarithmic
branch; identical to `EventAction::GetBinRadius`. -/
noncomputable def GetBinRadius (bin : ℤ) : ℝ :=
  if bin < 0 then 0
  else if (NUM_RADIAL_BINS : ℤ) ≤ bin then MAX_RADIUS
  else
    Real.exp ((logMin + (bin : ℝ) * logStep + (logMin + ((bin : ℝ) + 1) * logStep)) / 2)

/-- `RunAction::GetBinBoundaries` (RunAction.cc lines 254-279), logarithmic
branch, returned as `(rInner, rOuter)`. -/
noncomputable def GetBinBoundaries (bin : ℤ) : ℝ × ℝ :=
  if bin = 0 then (0, Real.exp (logMin + logStep))
  else if bin < (NUM_RADIAL_BINS : ℤ) then
    (Real.exp (logMin + (bin : ℝ) * logStep),
     Real.exp (logMin + ((bin : ℝ) + 1) * logStep))
  else (MAX_RADIUS, MAX_RADIUS)

/-- Depth window lower edge in `EventAction::GetDepthBin`: -50 um = -50000 nm. -/
noncomputable def minDepth : ℝ := -50000

/-- Depth window upper edge in `EventAction::GetDepthBin`: 150 nm. -/
noncomputable def maxDepth : ℝ := 150

/-- `EventAction::GetDepthBin` (EventAction.cc lines 184-199). -/
noncomputable def GetDepthBin (z : ℝ) : ℤ :=
  if z < minDepth then 0
  else if maxDepth < z then (NUM_DEPTH_BINS : ℤ) - 1
  else
    let bin := truncToInt ((z - minDepth) / (maxDepth - minDepth) * (NUM_DEPTH_BINS : ℝ))
    if bin < 0 then 0
    else if (NUM_DEPTH_BINS : ℤ) ≤ bin then (NUM_DEPTH_BINS : ℤ) - 1
    else bin

/-- The annular area `pi * (rOuter^2 - rInner^2)` computed from
`GetBinBoundaries`, as in `RunAction::SaveCSVFormat` / `SaveBEAMERFormat`. -/
noncomputable def binArea (bin : ℤ) : ℝ :=
  Real.pi * ((GetBinBoundaries bin).2 ^ 2 - (GetBinBoundaries bin).1 ^ 2)

section BinningLemmas

lemma MIN_RADIUS_pos : (0 : ℝ) < MIN_RADIUS := by norm_num [MIN_RADIUS]

lemma MAX_RADIUS_pos : (0 : ℝ) < MAX_RADIUS := by norm_num [MAX_RADIUS]

lemma ratio_MAX_MIN : MAX_RADIUS / MIN_RADIUS = (200000 : ℝ) := by
  norm_num [MAX_RADIUS, MIN_RADIUS]

lemma log_ratio_pos : 0 < Real.log (MAX_RADIUS / MIN_RADIUS) := by
  rw [ratio_MAX_MIN]; exact Real.log_pos (by norm_num)

lemma logMax_sub_logMin :
    logMax - logMin = Real.log (MAX_RADIUS / MIN_RADIUS) := by
  rw [logMax, logMin, Real.log_div (ne_of_gt MAX_RADIUS_pos) (ne_of_gt MIN_RADIUS_pos)]

lemma logStep_pos : 0 < logStep := by
  rw [logStep, logMax_sub_logMin]
  exact div_pos log_ratio_pos (by norm_num)

lemma MIN_le_MAX : MIN_RADIUS ≤ MAX_RADIUS := by norm_num [MIN_RADIUS, MAX_RADIUS]

lemma truncToInt_of_nonneg {x : ℝ} (h : 0 ≤ x) : truncToInt x = ⌊x⌋ := by
  simp [truncToInt, not_lt.2 h]

lemma getLogBin_nonpos {r : ℝ} (h : r ≤ 0) : GetLogBin r = -1 := by
  simp [GetLogBin, h]

lemma getLogBin_small {r : ℝ} (h0 : 0 < r) (h : r < MIN_RADIUS) :
    GetLogBin r = 0 := by
  simp [GetLogBin, h0.not_le, h]

lemma getLogBin_large {r : ℝ} (h : MAX_RADIUS ≤ r) :
    GetLogBin r = 149 := by
  have h0 : 0 < r := lt_of_lt_of_le MAX_RADIUS_pos h
  have h1 : ¬ r < MIN_RADIUS := not_lt.2 (le_trans MIN_le_MAX h)
  simp [GetLogBin, h0.not_le, h1, h]

lemma logRatio_nonneg {r : ℝ} (h : MIN_RADIUS ≤ r) : 0 ≤ logRatio r :=
  div_nonneg (Real.log_nonneg ((one_le_div MIN_RADIUS_pos).2 h)) log_ratio_pos.le

lemma logRatio_lt_one {r : ℝ} (h0 : 0 < r) (h : r < MAX_RADIUS) :
    logRatio r < 1 := by
  rw [logRatio, div_lt_one log_ratio_pos]
  exact Real.log_lt_log (div_pos h0 MIN_RADIUS_pos)
    ((div_lt_div_iff_of_pos_right MIN_RADIUS_pos).2 h)

lemma logRatio_mono {r s : ℝ} (h0 : 0 < r) (h : r ≤ s) :
    logRatio r ≤ logRatio s := by
  apply (div_le_div_iff_of_pos_right log_ratio_pos).2
  exact Real.log_le_log (div_pos h0 MIN_RADIUS_pos)
    ((div_le_div_iff_of_pos_right MIN_RADIUS_pos).2 h)

lemma getLogBin_mid {r : ℝ} (h1 : MIN_RADIUS ≤ r) (h2 : r < MAX_RADIUS) :
    GetLogBin r = ⌊logRatio r * 149⌋ := by
  have h0 : 0 < r := lt_of_lt_of_le MIN_RADIUS_pos h1
  have ht0 : 0 ≤ logRatio r := logRatio_nonneg h1
  have ht1 : logRatio r < 1 := logRatio_lt_one h0 h2
  have harg0 : 0 ≤ logRatio r * 149 := by nlinarith
  have hfl0 : 0 ≤ ⌊logRatio r * 149⌋ := Int.floor_nonneg.2 harg0
  have hfllt : ⌊logRatio r * 149⌋ < 150 := by
    apply Int.floor_lt.2
    push_cast
    nlinarith
  have hcast : ((NUM_RADIAL_BINS : ℝ) - 1) = 149 := by norm_num [NUM_RADIAL_BINS]
  simp only [GetLogBin, h0.not_le, if_false, not_lt.2 h1, not_le.2 h2, hcast,
    truncToInt_of_nonneg harg0]
  rw [if_neg (not_lt.2 hfl0), if_neg (by simp only [NUM_RADIAL_BINS]; push_cast; omega)]

lemma getLogBin_mid_le {r : ℝ} (h1 : MIN_RADIUS ≤ r) (h2 : r < MAX_RADIUS) :
    GetLogBin r ≤ 148 := by
  rw [getLogBin_mid h1 h2]
  have h0 : 0 < r := lt_of_lt_of_le MIN_RADIUS_pos h1
  have ht1 : logRatio r < 1 := logRatio_lt_one h0 h2
  have ht0 : 0 ≤ logRatio r := logRatio_nonneg h1
  have hlt : ⌊logRatio r * 149⌋ < 149 := by
    apply Int.floor_lt.2
    push_cast
    nlinarith
  omega

lemma getLogBin_nonneg {r : ℝ} (h0 : 0 < r) : 0 ≤ GetLogBin r := by
  rcases lt_or_le r MIN_RADIUS with h | h
  · rw [getLogBin_small h0 h]
  · rcases le_or_lt MAX_RADIUS r with h2 | h2
    · rw [getLogBin_large h2]; norm_num
    · rw [getLogBin_mid h h2]
      exact Int.floor_nonneg.2 (mul_nonneg (logRatio_nonneg h) (by norm_num))

lemma getLogBin_lt {r : ℝ} : GetLogBin r < 150 := by
  rcases le_or_lt r 0 with h | h0
  · rw [getLogBin_nonpos h]; norm_num
  rcases lt_or_le r MIN_RADIUS with h | h
  · rw [getLogBin_small h0 h]; norm_num
  rcases le_or_lt MAX_RADIUS r with h2 | h2
  · rw [getLogBin_large h2]; norm_num
  · have := getLogBin_mid_le h h2; omega

lemma getLogBin_mono {r s : ℝ} (h0 : 0 < r) (hrs : r ≤ s) :
    GetLogBin r ≤ GetLogBin s := by
  have hs0 : 0 < s := lt_of_lt_of_le h0 hrs
  rcases lt_or_le r MIN_RADIUS with hr | hr
  · rw [getLogBin_small h0 hr]
    exact getLogBin_nonneg hs0
  · rcases le_or_lt MAX_RADIUS r with hR | hR
    · rw [getLogBin_large hR, getLogBin_large (le_trans hR hrs)]
    · rcases le_or_lt MAX_RADIUS s with hS | hS
      · rw [getLogBin_large hS]
        have := getLogBin_mid_le hr hR; omega
      · rw [getLogBin_mid hr hR, getLogBin_mid (le_trans hr hrs) hS]
        exact Int.floor_le_floor
          (mul_le_mul_of_nonneg_right (logRatio_mono h0 hrs) (by norm_num))

lemma getBinBoundaries_zero :
    GetBinBoundaries 0 = (0, Real.exp (logMin + logStep)) := by
  simp [GetBinBoundaries]

lemma getBinBoundaries_mid {bin : ℤ} (h0 : bin ≠ 0) (h1 : bin < 150) :
    GetBinBoundaries bin =
      (Real.exp (logMin + (bin : ℝ) * logStep),
       Real.exp (logMin + ((bin : ℝ) + 1) * logStep)) := by
  have hcZ : ((NUM_RADIAL_BINS : ℤ)) = 150 := by norm_num [NUM_RADIAL_BINS]
  simp only [GetBinBoundaries, hcZ, if_neg h0, if_pos h1]

lemma getDepthBin_mem (z : ℝ) : 0 ≤ GetDepthBin z ∧ GetDepthBin z < 100 := by
  have hcR : ((NUM_DEPTH_BINS : ℝ)) = 100 := by norm_num [NUM_DEPTH_BINS]
  have hcZ : ((NUM_DEPTH_BINS : ℤ)) = 100 := by norm_num [NUM_DEPTH_BINS]
  simp only [GetDepthBin, hcR, hcZ]
  split_ifs <;> omega

lemma getBinRadius_inRange {bin : ℤ} (h0 : 0 ≤ bin) (h1 : bin < 150) :
    GetBinRadius bin =
      Real.exp ((logMin + (bin : ℝ) * logStep + (logMin + ((bin : ℝ) + 1) * logStep)) / 2) := by
  have hcZ : ((NUM_RADIAL_BINS : ℤ)) = 150 := by norm_num [NUM_RADIAL_BINS]
  simp only [GetBinRadius, hcZ, if_neg (not_lt.2 h0), if_neg (not_le.2 h1)]

lemma getBinRadius_pos {bin : ℤ} (h0 : 0 ≤ bin) (h1 : bin < 150) :
    0 < GetBinRadius bin := by
  rw [getBinRadius_inRange h0 h1]
  exact Real.exp_pos _

lemma getBinRadius_mono {b c : ℤ} (h0 : 0 ≤ b) (h : b ≤ c) (h1 : c < 150) :
    GetBinRadius b ≤ GetBinRadius c := by
  rw [getBinRadius_inRange h0 (lt_of_le_of_lt h h1),
    getBinRadius_inRange (le_trans h0 h) h1]
  apply Real.exp_le_exp.2
  have hbc : (b : ℝ) ≤ (c : ℝ) := by exact_mod_cast h
  have := logStep_pos
  nlinarith

end BinningLemmas

/-- One energy-deposit sample as passed to `EventAction::AddEnergyDeposit`
by the stepping collaborator. -/
structure Deposit where
  edep : ℝ
  x : ℝ
  y : ℝ
  z : ℝ

/-- The per-event accumulator state of `EventAction`: total deposited
energy, the radial histogram `fRadialEnergyDeposit`, the depth-radius
histogram `f2DEnergyDeposit`, and the three region scalars. -/
structure EventState where
  energyDeposit : ℝ
  radial : Fin NUM_RADIAL_BINS → ℝ
  hist2D : Fin NUM_DEPTH_BINS → Fin NUM_RADIAL_BINS → ℝ
  resist : ℝ
  substrate : ℝ
  above : ℝ

/-- The state established by `EventAction::BeginOfEventAction`: everything
zeroed. -/
noncomputable def zeroEventState : EventState :=
  ⟨0, fun _ => 0, fun _ _ => 0, 0, 0, 0⟩

/-- `EventAction::AddEnergyDeposit` (EventAction.cc lines 203-302).  Over
the reals the NaN/Infinity validation of lines 208-215 never fires, so the
embedded function keeps only the `edep <= 0` rejection.  An update at an
integer bin index touches an array entry exactly when the index is a valid
subscript, which reproduces the `radialBin >= 0 && radialBin < size` and
`depthBin >= 0 && depthBin < NUM_DEPTH_BINS` guards of lines 244-250 (an
out-of-range index updates nothing). -/
noncomputable def AddEnergyDeposit (resistThickness : ℝ) (s : EventState)
    (d : Deposit) : EventState :=
  if d.edep ≤ 0 then s
  else
    let r0 := Real.sqrt (d.x * d.x + d.y * d.y)
    let r := if 2 * MAX_RADIUS < r0 then MAX_RADIUS * 0.99 else r0
    let radialBin := GetLogBin r
    let depthBin := GetDepthBin d.z
    { energyDeposit := s.energyDeposit + d.edep
      radial := fun i =>
        if (i : ℤ) = radialBin then s.radial i + d.edep else s.radial i
      hist2D := fun dp i =>
        if (dp : ℤ) = depthBin ∧ (i : ℤ) = radialBin then s.hist2D dp i + d.edep
        else s.hist2D dp i
      resist :=
        if 0 ≤ d.z ∧ d.z ≤ resistThickness then s.resist + d.edep else s.resist
      substrate :=
        if 0 ≤ d.z ∧ d.z ≤ resistThickness then s.substrate
        else if d.z < 0 then s.substrate + d.edep else s.substrate
      above :=
        if 0 ≤ d.z ∧ d.z ≤ resistThickness then s.above
        else if d.z < 0 then s.above else s.above + d.edep }

/-- The per-thread accumulator state of `RunAction`: the local radial
profile, the local 2D profile, the scalar accumulables and the event
counter. -/
structure RunState where
  radialProfile : Fin NUM_RADIAL_BINS → ℝ
  profile2D : Fin NUM_DEPTH_BINS → Fin NUM_RADIAL_BINS → ℝ
  totalEnergyDeposit : ℝ
  resistTotal : ℝ
  substrateTotal : ℝ
  aboveTotal : ℝ
  numEvents : ℕ

/-- The state established by `RunAction::BeginOfRunAction`: everything
zeroed. -/
noncomputable def zeroRunState : RunState :=
  ⟨fun _ => 0, fun _ _ => 0, 0, 0, 0, 0, 0⟩

/-- `RunAction::AddRadialEnergyDeposit` (RunAction.cc lines 193-210): add
the strictly positive entries of the per-event histogram into the local
radial profile, add their total to the scalar accumulable, and count the
event. -/
noncomputable def AddRadialEnergyDeposit (s : RunState)
    (energyDeposit : Fin NUM_RADIAL_BINS → ℝ) : RunState :=
  let eventTotalEnergy := ∑ i, if 0 < energyDeposit i then energyDeposit i else 0
  { s with
    radialProfile := fun i =>
      if 0 < energyDeposit i then s.radialProfile i + energyDeposit i
      else s.radialProfile i
    totalEnergyDeposit :=
      if 0 < eventTotalEnergy then s.totalEnergyDeposit + eventTotalEnergy
      else s.totalEnergyDeposit
    numEvents := s.numEvents + 1 }

/-- `RunAction::Add2DEnergyDeposit` (RunAction.cc lines 212-222). -/
noncomputable def Add2DEnergyDeposit (s : RunState)
    (energy2D : Fin NUM_DEPTH_BINS → Fin NUM_RADIAL_BINS → ℝ) : RunState :=
  { s with
    profile2D := fun dp r =>
      if 0 < energy2D dp r then s.profile2D dp r + energy2D dp r
      else s.profile2D dp r }

/-- `RunAction::AddRegionEnergy` (RunAction.cc lines 224-230). -/
noncomputable def AddRegionEnergy (s : RunState)
    (resist substrate above : ℝ) : RunState :=
  { s with
    resistTotal := if 0 < resist then s.resistTotal + resist else s.resistTotal
    substrateTotal :=
      if 0 < substrate then s.substrateTotal + substrate else s.substrateTotal
    aboveTotal := if 0 < above then s.aboveTotal + above else s.aboveTotal }

/-- The flush performed by `EventAction::EndOfEventAction` (EventAction.cc
lines 124-127): pass the radial histogram, then the 2D histogram, then the
region scalars to the run action. -/
noncomputable def EndOfEventFlush (run : RunState) (ev : EventState) : RunState :=
  AddRegionEnergy (Add2DEnergyDeposit (AddRadialEnergyDeposit run ev.radial) ev.hist2D)
    ev.resist ev.substrate ev.above

/-- The master arrays `RunAction::fMasterRadialProfile` and
`RunAction::fMaster2DProfile`. -/
@[ext]
structure MasterArrays where
  radial : Fin NUM_RADIAL_BINS → ℝ
  hist2D : Fin NUM_DEPTH_BINS → Fin NUM_RADIAL_BINS → ℝ

/-- Master arrays as reset by `BeginOfRunAction`. -/
noncomputable def zeroMasterArrays : MasterArrays := ⟨fun _ => 0, fun _ _ => 0⟩

/-- `RunAction::MergeLocalArrays` (RunAction.cc lines 175-191): element-wise
addition of one worker's local arrays into the master arrays, performed
under `fArrayMergeMutex`. -/
noncomputable def MergeLocalArrays (master : MasterArrays) (worker : RunState) :
    MasterArrays :=
  { radial := fun i => master.radial i + worker.radialProfile i
    hist2D := fun dp r => master.hist2D dp r + worker.profile2D dp r }

/-- One full event on a worker: the `BeginOfEventAction` reset, the deposit
loop, and the `EndOfEventAction` flush into the run state. -/
noncomputable def runEvent (resistThickness : ℝ) (run : RunState)
    (deps : List Deposit) : RunState :=
  EndOfEventFlush run (deps.foldl (AddEnergyDeposit resistThickness) zeroEventState)

/-- A single-worker run over a list of events followed by the merge of the
worker's local arrays into the zeroed master arrays. -/
noncomputable def runAndMerge (resistThickness : ℝ)
    (events : List (List Deposit)) : MasterArrays :=
  MergeLocalArrays zeroMasterArrays (events.foldl (runEvent resistThickness) zeroRunState)

/-- The guarded per-bin energy density of `RunAction::SaveCSVFormat`
(RunAction.cc line 358): `hist[i] / (area * events)` when `area > 0` and
`fNumEvents > 0`, otherwise `0`. -/
noncomputable def energyDensity (hist : Fin NUM_RADIAL_BINS → ℝ)
    (numEvents : ℕ) (i : Fin NUM_RADIAL_BINS) : ℝ :=
  if 0 < binArea (i : ℤ) ∧ 0 < numEvents then
    hist i / (binArea (i : ℤ) * (numEvents : ℝ))
  else 0

/-- One data row of the PSF CSV written by `RunAction::SaveCSVFormat`. -/
structure CSVRow where
  radius : ℝ
  density : ℝ
  binLower : ℝ
  binUpper : ℝ
  events : ℕ

/-- The rows of the CSV file written by `RunAction::SaveCSVFormat`
(RunAction.cc lines 324-374): one row per bin, all bins included. -/
noncomputable def SaveCSVFormat (hist : Fin NUM_RADIAL_BINS → ℝ)
    (numEvents : ℕ) : List CSVRow :=
  (List.finRange NUM_RADIAL_BINS).map fun i =>
    { radius := GetBinRadius (i : ℤ)
      density := energyDensity hist numEvents i
      binLower := (GetBinBoundaries (i : ℤ)).1
      binUpper := (GetBinBoundaries (i : ℤ)).2
      events := numEvents }

/-- The `normalizedPSF` vector of `RunAction::SaveBEAMERFormat` before the
final normalization (RunAction.cc lines 392-405): assigned only when
`fNumEvents > 0`, zero otherwise. -/
noncomputable def preNormalizedPSF (hist : Fin NUM_RADIAL_BINS → ℝ)
    (numEvents : ℕ) : Fin NUM_RADIAL_BINS → ℝ :=
  fun i =>
    if 0 < numEvents then hist i / (binArea (i : ℤ) * (numEvents : ℝ)) else 0

/-- `totalIntegral` of `RunAction::SaveBEAMERFormat` (RunAction.cc lines
393-405). -/
noncomputable def totalIntegral (hist : Fin NUM_RADIAL_BINS → ℝ)
    (numEvents : ℕ) : ℝ :=
  ∑ i, preNormalizedPSF hist numEvents i * binArea (i : ℤ)

/-- The normalized PSF of `RunAction::SaveBEAMERFormat` after the
`totalIntegral > 0` normalization step (RunAction.cc lines 407-412). -/
noncomputable def normalizedPSF (hist : Fin NUM_RADIAL_BINS → ℝ)
    (numEvents : ℕ) : Fin NUM_RADIAL_BINS → ℝ :=
  if 0 < totalIntegral hist numEvents then
    fun i => preNormalizedPSF hist numEvents i / totalIntegral hist numEvents
  else preNormalizedPSF hist numEvents

/-- The save path of `RunAction::EndOfRunAction` (RunAction.cc lines
115-173).  The function returns at line 129 when `nofEvents == 0`, before
any merge or save: no output file is produced.  Otherwise the
master/sequential branch calls `SaveResults`, whose CSV part is returned
here. -/
noncomputable def EndOfRunAction (nofEvents : ℕ)
    (hist : Fin NUM_RADIAL_BINS → ℝ) : Option (List CSVRow) :=
  if nofEvents = 0 then none
  else some (SaveCSVFormat hist nofEvents)

/-- `totalRadialEnergy` of `RunAction::SaveSummary` (RunAction.cc lines
584-587): the sum of the whole radial profile. -/
noncomputable def totalRadialEnergy (hist : Fin NUM_RADIAL_BINS → ℝ) : ℝ :=
  ∑ i, hist i

/-- The `skipFirstBin` flag of `RunAction::SaveSummary` (RunAction.cc lines
599-607): set when the profile total is positive and the first bin holds
strictly more than 80% of it. -/
def skipFirstBin (hist : Fin NUM_RADIAL_BINS → ℝ) : Prop :=
  0 < totalRadialEnergy hist ∧ (0.8 : ℝ) < hist 0 / totalRadialEnergy hist

open Classical in
/-- `startBin` of `RunAction::SaveSummary` (RunAction.cc line 610). -/
noncomputable def startBin (hist : Fin NUM_RADIAL_BINS → ℝ) : ℕ :=
  if skipFirstBin hist then 1 else 0

/-- The radial profile read through a natural-number subscript, zero out of
range (used to mirror the integer `for` loops of `SaveSummary`). -/
noncomputable def histN (hist : Fin NUM_RADIAL_BINS → ℝ) (j : ℕ) : ℝ :=
  if h : j < NUM_RADIAL_BINS then hist ⟨j, h⟩ else 0

open Classical in
/-- `adjustedTotal` of `RunAction::SaveSummary` (RunAction.cc lines
611-621): the profile total without bin 0 when the spike exclusion is
active, the full total otherwise. -/
noncomputable def adjustedTotal (hist : Fin NUM_RADIAL_BINS → ℝ) : ℝ :=
  if skipFirstBin hist then ∑ j ∈ Finset.Ico 1 NUM_RADIAL_BINS, histN hist j
  else totalRadialEnergy hist

/-- One iteration of the percentile loop of `RunAction::SaveSummary`
(RunAction.cc lines 625-632), acting on `(cumulativeEnergy, e50, e90, e99)`. -/
noncomputable def stepPercentile (hist : Fin NUM_RADIAL_BINS → ℝ) (adjT : ℝ)
    (i : Fin NUM_RADIAL_BINS) (st : ℝ × ℝ × ℝ × ℝ) : ℝ × ℝ × ℝ × ℝ :=
  let cum := st.1 + hist i
  let fraction := cum / adjT
  (cum,
   if (0.5 : ℝ) ≤ fraction ∧ st.2.1 = 0 then GetBinRadius (i : ℤ) else st.2.1,
   if (0.9 : ℝ) ≤ fraction ∧ st.2.2.1 = 0 then GetBinRadius (i : ℤ) else st.2.2.1,
   if (0.99 : ℝ) ≤ fraction ∧ st.2.2.2 = 0 then GetBinRadius (i : ℤ) else st.2.2.2)

/-- The percentile `for` loop of `RunAction::SaveSummary`, from index `i`
up to `NUM_RADIAL_BINS - 1`. -/
noncomputable def percentileLoop (hist : Fin NUM_RADIAL_BINS → ℝ) (adjT : ℝ)
    (i : ℕ) (st : ℝ × ℝ × ℝ × ℝ) : ℝ × ℝ × ℝ × ℝ :=
  if h : i < NUM_RADIAL_BINS then
    percentileLoop hist adjT (i + 1) (stepPercentile hist adjT ⟨i, h⟩ st)
  else st
  termination_by NUM_RADIAL_BINS - i

open Classical in
/-- The `(e50, e90, e99)` values computed by `RunAction::SaveSummary`
(RunAction.cc lines 580-633): the loop runs only when `adjustedTotal > 0`,
all three values start at `0`. -/
noncomputable def summaryPercentiles (hist : Fin NUM_RADIAL_BINS → ℝ) :
    ℝ × ℝ × ℝ :=
  if 0 < adjustedTotal hist then
    ((percentileLoop hist (adjustedTotal hist) (startBin hist) (0, 0, 0, 0)).2.1,
     (percentileLoop hist (adjustedTotal hist) (startBin hist) (0, 0, 0, 0)).2.2.1,
     (percentileLoop hist (adjustedTotal hist) (startBin hist) (0, 0, 0, 0)).2.2.2)
  else (0, 0, 0)

/-- The statistics block of the summary file written by
`RunAction::SaveSummary`: the spike-exclusion note (line 605) and the
three percentile radii. -/
structure SummaryStats where
  spikeNote : Prop
  e50 : ℝ
  e90 : ℝ
  e99 : ℝ

/-- `RunAction::SaveSummary`, restricted to the statistics block. -/
noncomputable def SaveSummary (hist : Fin NUM_RADIAL_BINS → ℝ) : SummaryStats :=
  { spikeNote := skipFirstBin hist
    e50 := (summaryPercentiles hist).1
    e90 := (summaryPercentiles hist).2.1
    e99 := (summaryPercentiles hist).2.2 }

section AreaLemmas

lemma pi_mul_sq_sub_pos {a b : ℝ} (ha : 0 ≤ a) (hab : a < b) :
    0 < Real.pi * (b ^ 2 - a ^ 2) :=
  mul_pos Real.pi_pos (by nlinarith)

lemma binArea_pos {i : ℤ} (h0 : 0 ≤ i) (h1 : i < 150) : 0 < binArea i := by
  rcases eq_or_lt_of_le h0 with rfl | hpos
  · rw [binArea, getBinBoundaries_zero]
    exact pi_mul_sq_sub_pos le_rfl (Real.exp_pos _)
  · rw [binArea, getBinBoundaries_mid (by omega) h1]
    refine pi_mul_sq_sub_pos (Real.exp_pos _).le (Real.exp_lt_exp.2 ?_)
    nlinarith [logStep_pos]

lemma finCast_lt (i : Fin NUM_RADIAL_BINS) : ((i : ℕ) : ℤ) < 150 := by
  exact_mod_cast i.isLt

lemma binArea_pos_fin (i : Fin NUM_RADIAL_BINS) : 0 < binArea ((i : ℕ) : ℤ) :=
  binArea_pos (Int.natCast_nonneg _) (finCast_lt i)

end AreaLemmas

/-- C9: for every `i < N-1` the outer boundary of bin `i` equals the inner
boundary of bin `i+1`, the inner boundary of bin 0 is exactly 0, and the
outer boundary of the last bin is `MAX_RADIUS`: the radial bins partition
`[0, maxRadius]` with no gaps or overlaps. -/
theorem C9_bin_coverage :
    (∀ i : ℤ, 0 ≤ i → i < 149 →
      (GetBinBoundaries i).2 = (GetBinBoundaries (i + 1)).1) ∧
    (GetBinBoundaries 0).1 = 0 ∧
    (GetBinBoundaries 149).2 = MAX_RADIUS := by
  refine ⟨?_, ?_, ?_⟩
  · intro i h0 h1
    rcases eq_or_lt_of_le h0 with rfl | hpos
    · rw [getBinBoundaries_zero, getBinBoundaries_mid (by norm_num) (by norm_num)]
      norm_num
    · rw [getBinBoundaries_mid (by omega) (by omega),
        getBinBoundaries_mid (by omega) (by omega)]
      simp only
      push_cast
      ring_nf
  · rw [getBinBoundaries_zero]
  · rw [getBinBoundaries_mid (by norm_num) (by norm_num)]
    simp only
    have h150 : logMin + ((149 : ℤ) : ℝ) * logStep + logStep = logMax := by
      rw [logStep]
      push_cast
      field_simp
      ring
    have : logMin + (((149 : ℤ) : ℝ) + 1) * logStep = logMax := by
      rw [← h150]; ring
    rw [this, logMax, Real.exp_log MAX_RADIUS_pos]

/-- Witness for C9 at bin 5 and bin 0. -/
theorem C9_bin_coverage_witness :
    (GetBinBoundaries 5).2 = (GetBinBoundaries 6).1 ∧ (GetBinBoundaries 0).1 = 0 :=
  ⟨by have := C9_bin_coverage.1 5 (by norm_num) (by norm_num); exact_mod_cast this,
   C9_bin_coverage.2.1⟩

/-- C8: whenever the total integral `Σ density_i * area_i` computed by the
BEAMER exporter is strictly positive, the normalized PSF it produces
satisfies `Σ normalizedPSF_i * area_i = 1` in exact arithmetic. -/
theorem C8_integral_normalization (hist : Fin NUM_RADIAL_BINS → ℝ)
    (numEvents : ℕ) (hpos : 0 < totalIntegral hist numEvents) :
    ∑ i, normalizedPSF hist numEvents i * binArea ((i : ℕ) : ℤ) = 1 := by
  rw [normalizedPSF, if_pos hpos]
  calc ∑ i, preNormalizedPSF hist numEvents i / totalIntegral hist numEvents *
        binArea ((i : ℕ) : ℤ)
      = ∑ i, preNormalizedPSF hist numEvents i * binArea ((i : ℕ) : ℤ) /
          totalIntegral hist numEvents := by
        refine Finset.sum_congr rfl fun i _ => ?_
        rw [div_mul_eq_mul_div]
    _ = totalIntegral hist numEvents / totalIntegral hist numEvents := by
        rw [← Finset.sum_div, totalIntegral]
    _ = 1 := div_self (ne_of_gt hpos)

lemma totalIntegral_ones : totalIntegral (fun _ => 1) 1 = 150 := by
  rw [totalIntegral]
  have h : ∀ i : Fin NUM_RADIAL_BINS,
      preNormalizedPSF (fun _ => 1) 1 i * binArea ((i : ℕ) : ℤ) = 1 := by
    intro i
    have ha := binArea_pos_fin i
    rw [preNormalizedPSF]
    simp only [if_pos Nat.one_pos, Nat.cast_one, mul_one]
    field_simp
  rw [Finset.sum_congr rfl fun i _ => h i]
  simp [NUM_RADIAL_BINS]

/-- Witness for C8 on the all-ones histogram with one event. -/
theorem C8_integral_normalization_witness :
    0 < totalIntegral (fun _ => 1) 1 ∧
    ∑ i, normalizedPSF (fun _ => 1) 1 i * binArea ((i : ℕ) : ℤ) = 1 :=
  ⟨by rw [totalIntegral_ones]; norm_num,
   C8_integral_normalization (fun _ => 1) 1 (by rw [totalIntegral_ones]; norm_num)⟩

/-- C6: the logarithmic radial bin index returns `-1` for `r ≤ 0`, `0` on
`(0, rMin)`, `N-1 = 149` for `r ≥ rMax`, the clamped
`floor(log(r/rMin)/log(rMax/rMin) * (N-1))` in between, and is
non-decreasing in `r` over `r > 0`. -/
theorem C6_radial_bin_index :
    (∀ r : ℝ, r ≤ 0 → GetLogBin r = -1) ∧
    (∀ r : ℝ, 0 < r → r < MIN_RADIUS → GetLogBin r = 0) ∧
    (∀ r : ℝ, MAX_RADIUS ≤ r → GetLogBin r = 149) ∧
    (∀ r : ℝ, MIN_RADIUS ≤ r → r < MAX_RADIUS →
      GetLogBin r = max 0 (min (⌊logRatio r * 149⌋) 149)) ∧
    (∀ r s : ℝ, 0 < r → r ≤ s → GetLogBin r ≤ GetLogBin s) := by
  refine ⟨fun r h => getLogBin_nonpos h,
    fun r h0 h => getLogBin_small h0 h,
    fun r h => getLogBin_large h,
    fun r h1 h2 => ?_,
    fun r s h0 hrs => getLogBin_mono h0 hrs⟩
  have hmid := getLogBin_mid h1 h2
  have hle := getLogBin_mid_le h1 h2
  have hnn := getLogBin_nonneg (lt_of_lt_of_le MIN_RADIUS_pos h1)
  rw [hmid] at hle hnn ⊢
  omega

/-- Witness for C6 at concrete radii. -/
theorem C6_radial_bin_index_witness :
    GetLogBin (-1) = -1 ∧ GetLogBin 0.25 = 0 ∧ GetLogBin 100000 = 149 ∧
    GetLogBin 1 ≤ GetLogBin 2 :=
  ⟨C6_radial_bin_index.1 (-1) (by norm_num),
   C6_radial_bin_index.2.1 0.25 (by norm_num) (by norm_num [MIN_RADIUS]),
   C6_radial_bin_index.2.2.1 100000 (by norm_num [MAX_RADIUS]),
   C6_radial_bin_index.2.2.2.2 1 2 (by norm_num) (by norm_num)⟩

/-- C4 counterexample: for a run with `eventCount == 0` the end-of-run
handler returns at `if (nofEvents == 0) return;` before merging or saving,
so no export is produced — the claim that well-formed output files are
still written fails on the code. -/
theorem C4_counterexample : EndOfRunAction 0 (fun _ => 0) = none := by
  simp [EndOfRunAction]

/-- C4 (amended): for `eventCount == 0` the end-of-run handler skips the
export entirely (no files are written), and the density division of the
CSV exporter is guarded: with zero events every density is `0`, never a
division fault. -/
theorem C4_empty_run_amended :
    (∀ hist : Fin NUM_RADIAL_BINS → ℝ, EndOfRunAction 0 hist = none) ∧
    (∀ (hist : Fin NUM_RADIAL_BINS → ℝ) (i : Fin NUM_RADIAL_BINS),
      energyDensity hist 0 i = 0) := by
  constructor
  · intro hist; simp [EndOfRunAction]
  · intro hist i; simp [energyDensity]

/-- Witness for C4 (amended) at a concrete histogram. -/
theorem C4_empty_run_witness :
    EndOfRunAction 0 (fun _ => 1) = none ∧ energyDensity (fun _ => 1) 0 0 = 0 :=
  ⟨C4_empty_run_amended.1 _, C4_empty_run_amended.2 _ 0⟩

section RoundTrip

lemma logStep_eq : logStep = (logMax - logMin) / 150 := by
  rw [logStep]; norm_num [NUM_RADIAL_BINS]

lemma L_pos : 0 < logMax - logMin := by
  rw [logMax_sub_logMin]; exact log_ratio_pos

lemma exp_logMin_add {r : ℝ} (h0 : 0 < r) :
    Real.exp (logMin + logRatio r * (logMax - logMin)) = r := by
  rw [logMax_sub_logMin, logRatio, div_mul_cancel₀ _ (ne_of_gt log_ratio_pos),
    Real.log_div (ne_of_gt h0) (ne_of_gt MIN_RADIUS_pos), logMin,
    show Real.log MIN_RADIUS + (Real.log r - Real.log MIN_RADIUS) = Real.log r by ring]
  exact Real.exp_log h0

/-- C5 (amended): in logarithmic mode, for every radius `rMin ≤ r < rMax`
with `i = GetLogBin r`, the inner boundary of bin `i` is at most `r`, and
`r` lies strictly below the outer boundary of bin `i + 1`; `r` can reach
or exceed the outer boundary of bin `i` itself, because `GetLogBin`
divides the logarithmic range into `N - 1 = 149` steps while
`GetBinBoundaries` divides it into `N = 150` steps. -/
theorem C5_round_trip_amended (r : ℝ) (h1 : MIN_RADIUS ≤ r) (h2 : r < MAX_RADIUS) :
    (GetBinBoundaries (GetLogBin r)).1 ≤ r ∧
    r < (GetBinBoundaries (GetLogBin r + 1)).2 := by
  have h0 : 0 < r := lt_of_lt_of_le MIN_RADIUS_pos h1
  have ht0 : 0 ≤ logRatio r := logRatio_nonneg h1
  have ht1 : logRatio r < 1 := logRatio_lt_one h0 h2
  have hmid := getLogBin_mid h1 h2
  have hnn : 0 ≤ GetLogBin r := getLogBin_nonneg h0
  have hle : GetLogBin r ≤ 148 := getLogBin_mid_le h1 h2
  have hfl : ((GetLogBin r : ℤ) : ℝ) ≤ logRatio r * 149 := by
    rw [hmid]; exact Int.floor_le _
  have hfl2 : logRatio r * 149 < ((GetLogBin r : ℤ) : ℝ) + 1 := by
    rw [hmid]; exact Int.lt_floor_add_one _
  have hrexp : r = Real.exp (logMin + logRatio r * (logMax - logMin)) :=
    (exp_logMin_add h0).symm
  have hL := L_pos
  obtain ⟨b, hbdef⟩ : ∃ b, GetLogBin r = b := ⟨_, rfl⟩
  rw [hbdef] at hnn hle hfl hfl2 ⊢
  constructor
  · rcases eq_or_lt_of_le hnn with hz | hpos
    · rw [← hz, getBinBoundaries_zero]
      exact h0.le
    · rw [getBinBoundaries_mid (by omega) (by omega)]
      simp only
      rw [hrexp]
      apply Real.exp_le_exp.2
      rw [logStep_eq]
      have hb : ((b : ℤ) : ℝ) ≤ 150 * logRatio r := by nlinarith
      nlinarith
  · rw [getBinBoundaries_mid (by omega) (by omega)]
    simp only
    rw [hrexp]
    apply Real.exp_lt_exp.2
    rw [logStep_eq]
    push_cast
    have hb : 150 * logRatio r < ((b : ℤ) : ℝ) + 2 := by nlinarith
    nlinarith

/-- The radius `rMin * (rMax/rMin)^(149/150)`, the inner edge of the last
boundary step: the witness point where the claimed round trip fails. -/
noncomputable def rStar : ℝ :=
  MIN_RADIUS * (MAX_RADIUS / MIN_RADIUS) ^ ((149 : ℝ) / 150)

lemma one_lt_ratio : (1 : ℝ) < MAX_RADIUS / MIN_RADIUS := by
  rw [ratio_MAX_MIN]; norm_num

lemma rStar_ge : MIN_RADIUS ≤ rStar := by
  have h := Real.one_le_rpow one_lt_ratio.le (by norm_num : (0:ℝ) ≤ 149 / 150)
  calc MIN_RADIUS = MIN_RADIUS * 1 := by ring
    _ ≤ rStar := by
        rw [rStar]
        exact mul_le_mul_of_nonneg_left h MIN_RADIUS_pos.le

lemma rStar_lt : rStar < MAX_RADIUS := by
  have h : (MAX_RADIUS / MIN_RADIUS) ^ ((149 : ℝ) / 150) <
      (MAX_RADIUS / MIN_RADIUS) ^ ((1 : ℝ)) :=
    Real.rpow_lt_rpow_of_exponent_lt one_lt_ratio (by norm_num)
  rw [Real.rpow_one] at h
  calc rStar < MIN_RADIUS * (MAX_RADIUS / MIN_RADIUS) := by
        rw [rStar]
        exact mul_lt_mul_of_pos_left h MIN_RADIUS_pos
    _ = MAX_RADIUS := mul_div_cancel₀ _ (ne_of_gt MIN_RADIUS_pos)

lemma logRatio_rStar : logRatio rStar = 149 / 150 := by
  have hratio : (0 : ℝ) < MAX_RADIUS / MIN_RADIUS :=
    div_pos MAX_RADIUS_pos MIN_RADIUS_pos
  rw [logRatio, rStar, mul_div_cancel_left₀ _ (ne_of_gt MIN_RADIUS_pos),
    Real.log_rpow hratio, mul_div_assoc,
    div_self (ne_of_gt log_ratio_pos), mul_one]

lemma getLogBin_rStar : GetLogBin rStar = 148 := by
  rw [getLogBin_mid rStar_ge rStar_lt, logRatio_rStar]
  rw [Int.floor_eq_iff]
  constructor
  · push_cast; norm_num
  · push_cast; norm_num

/-- C5 counterexample: at `r = rMin * (rMax/rMin)^(149/150)` (≈ 92 µm,
inside `[rMin, rMax)`) the index map returns bin 148, but `r` equals the
outer boundary of bin 148 exactly, so `inner ≤ r < outer` fails for the
bin the radius is indexed to. -/
theorem C5_counterexample :
    MIN_RADIUS ≤ rStar ∧ rStar < MAX_RADIUS ∧ GetLogBin rStar = 148 ∧
    ¬ rStar < (GetBinBoundaries (GetLogBin rStar)).2 := by
  refine ⟨rStar_ge, rStar_lt, getLogBin_rStar, ?_⟩
  rw [getLogBin_rStar, getBinBoundaries_mid (by norm_num) (by norm_num)]
  simp only
  have houter : logMin + (((148 : ℤ) : ℝ) + 1) * logStep =
      logMin + logRatio rStar * (logMax - logMin) := by
    rw [logRatio_rStar, logStep_eq]
    push_cast
    ring
  rw [houter, exp_logMin_add (lt_of_lt_of_le MIN_RADIUS_pos rStar_ge)]
  exact lt_irrefl rStar

end RoundTrip

/-- Witness for C5 (amended) at r = 1 nm. -/
theorem C5_round_trip_witness :
    (GetBinBoundaries (GetLogBin 1)).1 ≤ 1 ∧
    (1 : ℝ) < (GetBinBoundaries (GetLogBin 1 + 1)).2 :=
  C5_round_trip_amended 1 (by norm_num [MIN_RADIUS]) (by norm_num [MAX_RADIUS])

section OverflowClamp

lemma log200000_ge_two : (2 : ℝ) ≤ Real.log 200000 := by
  rw [Real.le_log_iff_exp_le (by norm_num : (0:ℝ) < 200000)]
  have h1 : Real.exp 2 = Real.exp 1 * Real.exp 1 := by
    rw [← Real.exp_add]; norm_num
  nlinarith [Real.exp_one_lt_d9, Real.exp_pos 1]

lemma log198000_eq :
    Real.log 198000 = Real.log 200000 + Real.log (99 / 100) := by
  rw [show (198000 : ℝ) = 200000 * (99 / 100) by norm_num,
    Real.log_mul (by norm_num) (by norm_num)]

lemma log_99_100_ge : -(1 / 99 : ℝ) ≤ Real.log (99 / 100) := by
  have h : Real.log (100 / 99) ≤ 100 / 99 - 1 :=
    Real.log_le_sub_one_of_pos (by norm_num)
  have hinv : Real.log (99 / 100 : ℝ) = -Real.log (100 / 99) := by
    rw [show (99 / 100 : ℝ) = (100 / 99)⁻¹ by norm_num, Real.log_inv]
  rw [hinv]
  have : (100 / 99 - 1 : ℝ) = 1 / 99 := by norm_num
  linarith

lemma logRatio_overflow :
    logRatio (MAX_RADIUS * 0.99) = Real.log 198000 / Real.log 200000 := by
  rw [logRatio, ratio_MAX_MIN,
    show MAX_RADIUS * (0.99:ℝ) / MIN_RADIUS = 198000 by
      norm_num [MAX_RADIUS, MIN_RADIUS]]

lemma getLogBin_overflow : GetLogBin (MAX_RADIUS * 0.99) = 148 := by
  have h1 : MIN_RADIUS ≤ MAX_RADIUS * 0.99 := by norm_num [MIN_RADIUS, MAX_RADIUS]
  have h2 : MAX_RADIUS * 0.99 < MAX_RADIUS := by norm_num [MAX_RADIUS]
  rw [getLogBin_mid h1 h2, logRatio_overflow]
  have hpos : (0:ℝ) < Real.log 200000 := by linarith [log200000_ge_two]
  have hlow : (148 : ℝ) ≤ Real.log 198000 / Real.log 200000 * 149 := by
    rw [div_mul_eq_mul_div, le_div_iff₀ hpos]
    rw [log198000_eq]
    nlinarith [log_99_100_ge, log200000_ge_two]
  have hhigh : Real.log 198000 / Real.log 200000 * 149 < 149 := by
    have hlt : Real.log 198000 < Real.log 200000 :=
      Real.log_lt_log (by norm_num) (by norm_num)
    have : Real.log 198000 / Real.log 200000 < 1 := (div_lt_one hpos).2 hlt
    nlinarith
  rw [Int.floor_eq_iff]
  · constructor
    · exact_mod_cast hlow
    · push_cast; linarith

lemma fin_int_eq_148 (i : Fin NUM_RADIAL_BINS) :
    ((i : ℕ) : ℤ) = 148 ↔ i = 148 := by
  rw [Fin.ext_iff]
  have h : ((148 : Fin NUM_RADIAL_BINS) : ℕ) = 148 := rfl
  rw [h]
  omega

lemma fin_int_ne_149 : ¬ (((149 : Fin NUM_RADIAL_BINS) : ℕ) : ℤ) = 148 := by
  have h : ((149 : Fin NUM_RADIAL_BINS) : ℕ) = 149 := rfl
  rw [h]
  omega

/-- C3: evaluation of the code at the failing input.  A deposit of energy
1 at `x = 250 µm` (radius beyond the overflow margin `2·rMax`) keeps its
full energy in the radial histogram, but it lands in bin 148 — the
second-to-last bin — not in the last valid bin `N-1 = 149` as the claim
(and the code's own `Put in last bin` comment) state, because the clamp
rewrites `r` to `0.99·rMax` whose logarithmic bin index is 148. -/
theorem C3_overflow_failing_input :
    (∑ i, (AddEnergyDeposit 30 zeroEventState ⟨1, 250000, 0, 0⟩).radial i) = 1 ∧
    (AddEnergyDeposit 30 zeroEventState ⟨1, 250000, 0, 0⟩).radial 148 = 1 ∧
    (AddEnergyDeposit 30 zeroEventState ⟨1, 250000, 0, 0⟩).radial 149 = 0 := by
  have hr0 : Real.sqrt ((250000 : ℝ) * 250000 + 0 * 0) = 250000 := by
    rw [show ((250000:ℝ) * 250000 + 0 * 0) = 250000 * 250000 by ring]
    exact Real.sqrt_mul_self (by norm_num)
  have hover : 2 * MAX_RADIUS < (250000 : ℝ) := by norm_num [MAX_RADIUS]
  have hradial : (AddEnergyDeposit 30 zeroEventState ⟨1, 250000, 0, 0⟩).radial =
      fun i : Fin NUM_RADIAL_BINS => if ((i : ℕ) : ℤ) = 148 then (0 : ℝ) + 1 else 0 := by
    simp only [AddEnergyDeposit]
    rw [if_neg (by norm_num : ¬ (1 : ℝ) ≤ 0)]
    simp only [hr0, if_pos hover, getLogBin_overflow, zeroEventState]
  refine ⟨?_, ?_, ?_⟩
  · rw [hradial]
    have hc : ∀ i : Fin NUM_RADIAL_BINS,
        (if ((i : ℕ) : ℤ) = 148 then (0 : ℝ) + 1 else 0) =
        (if i = 148 then (0 : ℝ) + 1 else 0) := by
      intro i
      by_cases h : i = 148
      · rw [if_pos ((fin_int_eq_148 i).2 h), if_pos h]
      · rw [if_neg (fun hh => h ((fin_int_eq_148 i).1 hh)), if_neg h]
    rw [Finset.sum_congr rfl fun i _ => hc i, Finset.sum_ite_eq']
    norm_num
  · rw [hradial]
    simp only
    rw [if_pos ((fin_int_eq_148 148).2 rfl)]
    norm_num
  · rw [hradial]
    simp only
    rw [if_neg fin_int_ne_149]

end OverflowClamp

section EnergyConservation

lemma sum_if_int_eq {n : ℕ} {v : Fin n → ℝ} {b : ℤ} {e : ℝ}
    (h0 : 0 ≤ b) (h1 : b < (n : ℤ)) :
    ∑ i : Fin n, (if ((i : ℕ) : ℤ) = b then v i + e else v i)
      = (∑ i, v i) + e := by
  have hb : b.toNat < n := by omega
  have hcond : ∀ i : Fin n, (((i : ℕ) : ℤ) = b) ↔ i = ⟨b.toNat, hb⟩ := by
    intro i
    rw [Fin.ext_iff]
    simp only
    omega
  calc ∑ i : Fin n, (if ((i : ℕ) : ℤ) = b then v i + e else v i)
      = ∑ i : Fin n, (v i + if i = ⟨b.toNat, hb⟩ then e else 0) := by
        refine Finset.sum_congr rfl fun i _ => ?_
        by_cases h : i = ⟨b.toNat, hb⟩
        · rw [if_pos ((hcond i).2 h), if_pos h]
        · rw [if_neg (fun hh => h ((hcond i).1 hh)), if_neg h, add_zero]
    _ = (∑ i, v i) + ∑ i : Fin n, (if i = ⟨b.toNat, hb⟩ then e else 0) :=
        Finset.sum_add_distrib
    _ = (∑ i, v i) + e := by
        rw [Finset.sum_ite_eq']
        simp

lemma addEnergyDeposit_radial (t : ℝ) (s : EventState) (d : Deposit)
    (he : 0 < d.edep) :
    (AddEnergyDeposit t s d).radial = fun i : Fin NUM_RADIAL_BINS =>
      if ((i : ℕ) : ℤ) =
          GetLogBin (if 2 * MAX_RADIUS < Real.sqrt (d.x * d.x + d.y * d.y)
            then MAX_RADIUS * 0.99 else Real.sqrt (d.x * d.x + d.y * d.y))
      then s.radial i + d.edep else s.radial i := by
  simp only [AddEnergyDeposit, if_neg (not_le.2 he)]

lemma addEnergyDeposit_hist2D (t : ℝ) (s : EventState) (d : Deposit)
    (he : 0 < d.edep) :
    (AddEnergyDeposit t s d).hist2D = fun (dp : Fin NUM_DEPTH_BINS)
        (i : Fin NUM_RADIAL_BINS) =>
      if ((dp : ℕ) : ℤ) = GetDepthBin d.z ∧ ((i : ℕ) : ℤ) =
          GetLogBin (if 2 * MAX_RADIUS < Real.sqrt (d.x * d.x + d.y * d.y)
            then MAX_RADIUS * 0.99 else Real.sqrt (d.x * d.x + d.y * d.y))
      then s.hist2D dp i + d.edep else s.hist2D dp i := by
  simp only [AddEnergyDeposit, if_neg (not_le.2 he)]

lemma addEnergyDeposit_nonpos (t : ℝ) (s : EventState) (d : Deposit)
    (he : d.edep ≤ 0) : AddEnergyDeposit t s d = s := by
  simp only [AddEnergyDeposit, if_pos he]

lemma rEff_pos {x y : ℝ} (hr : 0 < x * x + y * y) :
    0 < (if 2 * MAX_RADIUS < Real.sqrt (x * x + y * y)
      then MAX_RADIUS * 0.99 else Real.sqrt (x * x + y * y)) := by
  split_ifs
  · norm_num [MAX_RADIUS]
  · exact Real.sqrt_pos.2 hr

lemma addEnergyDeposit_radial_sum (t : ℝ) (s : EventState) (d : Deposit)
    (he : 0 < d.edep) (hr : 0 < d.x * d.x + d.y * d.y) :
    ∑ i, (AddEnergyDeposit t s d).radial i = (∑ i, s.radial i) + d.edep := by
  rw [addEnergyDeposit_radial t s d he]
  exact sum_if_int_eq (getLogBin_nonneg (rEff_pos hr)) (by exact_mod_cast getLogBin_lt)

lemma addEnergyDeposit_radial_nonneg (t : ℝ) (s : EventState) (d : Deposit)
    (hs : ∀ i, 0 ≤ s.radial i) :
    ∀ i, 0 ≤ (AddEnergyDeposit t s d).radial i := by
  by_cases he : d.edep ≤ 0
  · rw [addEnergyDeposit_nonpos t s d he]; exact hs
  · rw [addEnergyDeposit_radial t s d (not_le.1 he)]
    intro i
    dsimp only
    have hedep : 0 < d.edep := not_le.1 he
    split
    · split
      · linarith [hs i]
      · exact hs i
    · split
      · linarith [hs i]
      · exact hs i

lemma foldl_addEnergyDeposit_sum (t : ℝ) (deps : List Deposit)
    (hd : ∀ d ∈ deps, 0 < d.edep ∧ 0 < d.x * d.x + d.y * d.y) :
    ∀ s : EventState, ∑ i, (deps.foldl (AddEnergyDeposit t) s).radial i
      = (∑ i, s.radial i) + (deps.map Deposit.edep).sum := by
  induction deps with
  | nil => intro s; simp
  | cons d rest ih =>
    intro s
    simp only [List.foldl_cons, List.map_cons, List.sum_cons]
    rw [ih (fun d' hd' => hd d' (List.mem_cons_of_mem _ hd')) _,
      addEnergyDeposit_radial_sum t s d (hd d (List.mem_cons_self _ _)).1
        (hd d (List.mem_cons_self _ _)).2]
    ring

lemma foldl_addEnergyDeposit_nonneg (t : ℝ) (deps : List Deposit) :
    ∀ s : EventState, (∀ i, 0 ≤ s.radial i) →
      ∀ i, 0 ≤ (deps.foldl (AddEnergyDeposit t) s).radial i := by
  induction deps with
  | nil => intro s hs; exact hs
  | cons d rest ih =>
    intro s hs
    exact ih _ (addEnergyDeposit_radial_nonneg t s d hs)

lemma add2D_radialProfile (s : RunState)
    (e2 : Fin NUM_DEPTH_BINS → Fin NUM_RADIAL_BINS → ℝ) :
    (Add2DEnergyDeposit s e2).radialProfile = s.radialProfile := rfl

lemma addRegion_radialProfile (s : RunState) (a b c : ℝ) :
    (AddRegionEnergy s a b c).radialProfile = s.radialProfile := rfl

lemma endOfEventFlush_radialProfile (run : RunState) (ev : EventState) :
    (EndOfEventFlush run ev).radialProfile =
      (AddRadialEnergyDeposit run ev.radial).radialProfile := rfl

lemma addRadial_profile_sum (run : RunState)
    (dep : Fin NUM_RADIAL_BINS → ℝ) (hd : ∀ i, 0 ≤ dep i) :
    ∑ i, (AddRadialEnergyDeposit run dep).radialProfile i
      = (∑ i, run.radialProfile i) + ∑ i, dep i := by
  simp only [AddRadialEnergyDeposit]
  rw [← Finset.sum_add_distrib]
  refine Finset.sum_congr rfl fun i _ => ?_
  by_cases h : 0 < dep i
  · rw [if_pos h]
  · rw [if_neg h]
    have : dep i = 0 := le_antisymm (not_lt.1 h) (hd i)
    rw [this, add_zero]

lemma run_fold_radial_sum (t : ℝ) (events : List (List Deposit))
    (hev : ∀ ev ∈ events, ∀ d ∈ ev, 0 < d.edep ∧ 0 < d.x * d.x + d.y * d.y) :
    ∀ run : RunState, ∑ i, (events.foldl (runEvent t) run).radialProfile i
      = (∑ i, run.radialProfile i) +
        (events.map (fun ev => (ev.map Deposit.edep).sum)).sum := by
  induction events with
  | nil => intro run; simp
  | cons ev rest ih =>
    intro run
    simp only [List.foldl_cons, List.map_cons, List.sum_cons]
    rw [ih (fun ev' h' => hev ev' (List.mem_cons_of_mem _ h')) _]
    have hhd := hev ev (List.mem_cons_self _ _)
    have hst : ∑ i, (ev.foldl (AddEnergyDeposit t) zeroEventState).radial i
        = (ev.map Deposit.edep).sum := by
      rw [foldl_addEnergyDeposit_sum t ev hhd zeroEventState]
      simp [zeroEventState]
    have hstnn : ∀ i, 0 ≤ (ev.foldl (AddEnergyDeposit t) zeroEventState).radial i :=
      foldl_addEnergyDeposit_nonneg t ev zeroEventState (by simp [zeroEventState])
    have h1 : ∑ i, (runEvent t run ev).radialProfile i
        = (∑ i, run.radialProfile i) + (ev.map Deposit.edep).sum := by
      rw [runEvent, endOfEventFlush_radialProfile,
        addRadial_profile_sum run _ hstnn, hst]
    rw [h1]
    ring

lemma merge_radial_sum (master : MasterArrays) (w : RunState) :
    ∑ i, (MergeLocalArrays master w).radial i
      = (∑ i, master.radial i) + ∑ i, w.radialProfile i := by
  simp [MergeLocalArrays, Finset.sum_add_distrib]

/-- C1 (amended): for every finite sequence of accepted deposits whose
radius `sqrt(x² + y²)` is strictly positive, the sum over all bins of the
master radial histogram after the per-event flushes and the merge equals
the sum of the deposit energies.  (Deposits at exactly `r = 0` pass the
NaN/finiteness validation but are dropped from the radial histogram,
because `GetLogBin` returns `-1` for `r ≤ 0`; the conservation law holds
for every deposit with positive radius.) -/
theorem C1_energy_conservation_amended (t : ℝ) (events : List (List Deposit))
    (hev : ∀ ev ∈ events, ∀ d ∈ ev, 0 < d.edep ∧ 0 < d.x * d.x + d.y * d.y) :
    ∑ i, (runAndMerge t events).radial i
      = (events.map (fun ev => (ev.map Deposit.edep).sum)).sum := by
  rw [runAndMerge, merge_radial_sum, run_fold_radial_sum t events hev zeroRunState]
  simp [zeroMasterArrays, zeroRunState]

/-- Witness for C1 (amended): one event with one deposit of energy 1 at
`x = 1, y = 0`. -/
theorem C1_energy_conservation_witness :
    ∑ i, (runAndMerge 30 [[⟨1, 1, 0, 0⟩]]).radial i = 1 := by
  have h := C1_energy_conservation_amended 30 [[⟨1, 1, 0, 0⟩]] (by
    intro ev hev d hd
    simp only [List.mem_singleton] at hev
    subst hev
    simp only [List.mem_singleton] at hd
    subst hd
    norm_num)
  rw [h]
  norm_num

/-- C1 counterexample: a single deposit of energy 1 at exactly
`x = y = 0` is accepted (positive energy, all coordinates finite, not
rejected by the NaN/Infinity validation), yet the merged radial histogram
sums to 0, not to the deposited energy 1: `GetLogBin` returns `-1` for the
zero radius and the deposit is dropped from the histogram. -/
theorem C1_counterexample :
    (∑ i, (runAndMerge 30 [[⟨1, 0, 0, 0⟩]]).radial i) = 0 ∧
    (∑ i, (runAndMerge 30 [[⟨1, 0, 0, 0⟩]]).radial i) ≠ 1 := by
  have hsqrt : Real.sqrt ((0 : ℝ) * 0 + 0 * 0) = 0 := by
    norm_num
  have hevr : (AddEnergyDeposit 30 zeroEventState ⟨1, 0, 0, 0⟩).radial =
      fun _ : Fin NUM_RADIAL_BINS => (0 : ℝ) := by
    rw [addEnergyDeposit_radial 30 zeroEventState ⟨1, 0, 0, 0⟩ (by norm_num)]
    funext i
    simp only [hsqrt]
    rw [if_neg (by norm_num [MAX_RADIUS] : ¬ 2 * MAX_RADIUS < (0:ℝ))]
    rw [getLogBin_nonpos le_rfl]
    rw [if_neg (by omega : ¬ ((i : ℕ) : ℤ) = -1)]
    simp [zeroEventState]
  have hzero : ∀ i, (runAndMerge 30 [[⟨1, 0, 0, 0⟩]]).radial i = 0 := by
    intro i
    rw [runAndMerge]
    simp only [List.foldl_cons, List.foldl_nil, runEvent, MergeLocalArrays]
    rw [endOfEventFlush_radialProfile]
    simp only [AddRadialEnergyDeposit, hevr, zeroMasterArrays, zeroRunState]
    norm_num
  constructor
  · rw [Finset.sum_congr rfl fun i _ => hzero i]
    simp
  · rw [Finset.sum_congr rfl fun i _ => hzero i]
    simp

end EnergyConservation

section MergeInvariance

/-- A worker accumulating a stream of flushed per-event states into its
local (zeroed) run state, exactly as `EndOfEventAction` does once per
event. -/
noncomputable def accumulateWorker (events : List EventState) : RunState :=
  events.foldl EndOfEventFlush zeroRunState

lemma addRadial_radialProfile_point (run : RunState)
    (dep : Fin NUM_RADIAL_BINS → ℝ) (i : Fin NUM_RADIAL_BINS) :
    (AddRadialEnergyDeposit run dep).radialProfile i
      = run.radialProfile i + (if 0 < dep i then dep i else 0) := by
  simp only [AddRadialEnergyDeposit]
  split
  · rfl
  · rw [add_zero]

lemma addRadial_profile2D (run : RunState) (dep : Fin NUM_RADIAL_BINS → ℝ) :
    (AddRadialEnergyDeposit run dep).profile2D = run.profile2D := rfl

lemma addRegion_profile2D (s : RunState) (a b c : ℝ) :
    (AddRegionEnergy s a b c).profile2D = s.profile2D := rfl

lemma endOfEventFlush_radialProfile_point (run : RunState) (ev : EventState)
    (i : Fin NUM_RADIAL_BINS) :
    (EndOfEventFlush run ev).radialProfile i
      = run.radialProfile i + (if 0 < ev.radial i then ev.radial i else 0) := by
  rw [endOfEventFlush_radialProfile]
  exact addRadial_radialProfile_point run ev.radial i

lemma endOfEventFlush_profile2D_point (run : RunState) (ev : EventState)
    (dp : Fin NUM_DEPTH_BINS) (r : Fin NUM_RADIAL_BINS) :
    (EndOfEventFlush run ev).profile2D dp r
      = run.profile2D dp r + (if 0 < ev.hist2D dp r then ev.hist2D dp r else 0) := by
  show (AddRegionEnergy (Add2DEnergyDeposit (AddRadialEnergyDeposit run ev.radial)
    ev.hist2D) ev.resist ev.substrate ev.above).profile2D dp r = _
  rw [addRegion_profile2D]
  simp only [Add2DEnergyDeposit, addRadial_profile2D]
  split
  · rfl
  · rw [add_zero]

lemma foldl_flush_radial (events : List EventState) :
    ∀ (run : RunState) (i : Fin NUM_RADIAL_BINS),
      (events.foldl EndOfEventFlush run).radialProfile i
        = run.radialProfile i +
          (events.map (fun ev => if 0 < ev.radial i then ev.radial i else 0)).sum := by
  induction events with
  | nil => intro run i; simp
  | cons ev rest ih =>
    intro run i
    simp only [List.foldl_cons, List.map_cons, List.sum_cons]
    rw [ih, endOfEventFlush_radialProfile_point]
    ring

lemma foldl_flush_2D (events : List EventState) :
    ∀ (run : RunState) (dp : Fin NUM_DEPTH_BINS) (r : Fin NUM_RADIAL_BINS),
      (events.foldl EndOfEventFlush run).profile2D dp r
        = run.profile2D dp r +
          (events.map (fun ev => if 0 < ev.hist2D dp r then ev.hist2D dp r else 0)).sum := by
  induction events with
  | nil => intro run dp r; simp
  | cons ev rest ih =>
    intro run dp r
    simp only [List.foldl_cons, List.map_cons, List.sum_cons]
    rw [ih, endOfEventFlush_profile2D_point]
    ring

lemma foldl_merge_radial (ws : List RunState) :
    ∀ (m : MasterArrays) (i : Fin NUM_RADIAL_BINS),
      ((ws.foldl MergeLocalArrays m).radial i)
        = m.radial i + (ws.map (fun w => w.radialProfile i)).sum := by
  induction ws with
  | nil => intro m i; simp
  | cons w rest ih =>
    intro m i
    simp only [List.foldl_cons, List.map_cons, List.sum_cons]
    rw [ih]
    simp only [MergeLocalArrays]
    ring

lemma foldl_merge_2D (ws : List RunState) :
    ∀ (m : MasterArrays) (dp : Fin NUM_DEPTH_BINS) (r : Fin NUM_RADIAL_BINS),
      ((ws.foldl MergeLocalArrays m).hist2D dp r)
        = m.hist2D dp r + (ws.map (fun w => w.profile2D dp r)).sum := by
  induction ws with
  | nil => intro m dp r; simp
  | cons w rest ih =>
    intro m dp r
    simp only [List.foldl_cons, List.map_cons, List.sum_cons]
    rw [ih]
    simp only [MergeLocalArrays]
    ring

lemma sum_map_flatten {α : Type} (g : α → ℝ) :
    ∀ L : List (List α), ((L.flatten).map g).sum
      = (L.map (fun w => (w.map g).sum)).sum := by
  intro L
  induction L with
  | nil => simp
  | cons w rest ih =>
    simp only [List.flatten_cons, List.map_append, List.sum_append,
      List.map_cons, List.sum_cons, ih]

/-- C2: partitioning a fixed stream of per-event histogram contributions
across any number of workers, accumulating each partition into the
worker's local arrays, and merging every worker into the master arrays (in
any order covered by the permutation hypothesis) yields the same master
radial and 2D histograms as accumulating the whole stream on a single
worker. -/
theorem C2_merge_invariance (events : List EventState)
    (workers : List (List EventState))
    (hperm : workers.flatten.Perm events) :
    (workers.map accumulateWorker).foldl MergeLocalArrays zeroMasterArrays
      = MergeLocalArrays zeroMasterArrays (accumulateWorker events) := by
  have haccum_r : ∀ (w : List EventState) (i : Fin NUM_RADIAL_BINS),
      (accumulateWorker w).radialProfile i
        = (w.map (fun ev => if 0 < ev.radial i then ev.radial i else 0)).sum := by
    intro w i
    rw [accumulateWorker, foldl_flush_radial]
    simp [zeroRunState]
  have haccum_2 : ∀ (w : List EventState) (dp : Fin NUM_DEPTH_BINS)
      (r : Fin NUM_RADIAL_BINS),
      (accumulateWorker w).profile2D dp r
        = (w.map (fun ev => if 0 < ev.hist2D dp r then ev.hist2D dp r else 0)).sum := by
    intro w dp r
    rw [accumulateWorker, foldl_flush_2D]
    simp [zeroRunState]
  ext
  case radial =>
    rename_i i
    rw [foldl_merge_radial]
    simp only [MergeLocalArrays, zeroMasterArrays]
    have hchain : (workers.map accumulateWorker).map (fun w => w.radialProfile i)
        = workers.map fun w => (accumulateWorker w).radialProfile i := by
      rw [List.map_map]; rfl
    have hmaps : (workers.map (fun w => (accumulateWorker w).radialProfile i))
        = workers.map (fun w =>
            (w.map (fun ev => if 0 < ev.radial i then ev.radial i else 0)).sum) :=
      List.map_congr_left fun w _ => haccum_r w i
    have hflat := (sum_map_flatten
      (fun ev : EventState => if 0 < ev.radial i then ev.radial i else 0) workers).symm
    have hps := (hperm.map
      (fun ev : EventState => if 0 < ev.radial i then ev.radial i else 0)).sum_eq
    rw [hchain, hmaps, hflat, hps, haccum_r events]
  case hist2D =>
    rename_i dp r
    rw [foldl_merge_2D]
    simp only [MergeLocalArrays, zeroMasterArrays]
    have hchain : (workers.map accumulateWorker).map (fun w => w.profile2D dp r)
        = workers.map fun w => (accumulateWorker w).profile2D dp r := by
      rw [List.map_map]; rfl
    have hmaps : (workers.map (fun w => (accumulateWorker w).profile2D dp r))
        = workers.map (fun w =>
            (w.map (fun ev => if 0 < ev.hist2D dp r then ev.hist2D dp r else 0)).sum) :=
      List.map_congr_left fun w _ => haccum_2 w dp r
    have hflat := (sum_map_flatten
      (fun ev : EventState => if 0 < ev.hist2D dp r then ev.hist2D dp r else 0) workers).symm
    have hps := (hperm.map
      (fun ev : EventState => if 0 < ev.hist2D dp r then ev.hist2D dp r else 0)).sum_eq
    rw [hchain, hmaps, hflat, hps, haccum_2 events]

/-- Witness for C2: two events split across two workers in swapped order
versus a single worker. -/
theorem C2_merge_invariance_witness :
    (([[(⟨1, fun _ => 1, fun _ _ => 1, 0, 0, 0⟩ : EventState)],
       [zeroEventState]].map accumulateWorker).foldl
        MergeLocalArrays zeroMasterArrays)
      = MergeLocalArrays zeroMasterArrays
          (accumulateWorker
            [zeroEventState, (⟨1, fun _ => 1, fun _ _ => 1, 0, 0, 0⟩ : EventState)]) :=
  C2_merge_invariance _ _ (by
    simp only [List.flatten]
    exact List.Perm.swap _ _ _)

end MergeInvariance

section TwoDConsistency

lemma addEnergyDeposit_consistency (t : ℝ) (s : EventState) (d : Deposit)
    (hP : ∀ r : Fin NUM_RADIAL_BINS, ∑ dp, s.hist2D dp r = s.radial r) :
    ∀ r : Fin NUM_RADIAL_BINS,
      ∑ dp, (AddEnergyDeposit t s d).hist2D dp r = (AddEnergyDeposit t s d).radial r := by
  by_cases he : d.edep ≤ 0
  · rw [addEnergyDeposit_nonpos t s d he]
    exact hP
  · have he' : 0 < d.edep := not_le.1 he
    intro r
    rw [addEnergyDeposit_radial t s d he', addEnergyDeposit_hist2D t s d he']
    dsimp only
    set rb := GetLogBin (if 2 * MAX_RADIUS < Real.sqrt (d.x * d.x + d.y * d.y)
      then MAX_RADIUS * 0.99 else Real.sqrt (d.x * d.x + d.y * d.y)) with hrb
    by_cases hcol : ((r : ℕ) : ℤ) = rb
    · rw [if_pos hcol]
      have hstep : ∀ dp : Fin NUM_DEPTH_BINS,
          (if ((dp : ℕ) : ℤ) = GetDepthBin d.z ∧ ((r : ℕ) : ℤ) = rb
            then s.hist2D dp r + d.edep else s.hist2D dp r)
          = (if ((dp : ℕ) : ℤ) = GetDepthBin d.z
            then s.hist2D dp r + d.edep else s.hist2D dp r) := by
        intro dp
        by_cases hdp : ((dp : ℕ) : ℤ) = GetDepthBin d.z
        · rw [if_pos ⟨hdp, hcol⟩, if_pos hdp]
        · rw [if_neg (fun hh => hdp hh.1), if_neg hdp]
      rw [Finset.sum_congr rfl fun dp _ => hstep dp,
        sum_if_int_eq (getDepthBin_mem d.z).1
          (by exact_mod_cast (getDepthBin_mem d.z).2),
        hP r]
    · rw [if_neg hcol]
      calc ∑ dp : Fin NUM_DEPTH_BINS,
              (if ((dp : ℕ) : ℤ) = GetDepthBin d.z ∧ ((r : ℕ) : ℤ) = rb
              then s.hist2D dp r + d.edep else s.hist2D dp r)
          = ∑ dp, s.hist2D dp r :=
            Finset.sum_congr rfl fun dp _ => by rw [if_neg (fun hh => hcol hh.2)]
        _ = s.radial r := hP r

lemma endOfEventFlush_consistency (run : RunState) (ev : EventState)
    (hnn : ∀ dp r, 0 ≤ ev.hist2D dp r)
    (hPev : ∀ r, ∑ dp, ev.hist2D dp r = ev.radial r)
    (hPrun : ∀ r, ∑ dp, run.profile2D dp r = run.radialProfile r) :
    ∀ r, ∑ dp, (EndOfEventFlush run ev).profile2D dp r
      = (EndOfEventFlush run ev).radialProfile r := by
  intro r
  have hevr_nn : 0 ≤ ev.radial r := by
    rw [← hPev r]
    exact Finset.sum_nonneg fun dp _ => hnn dp r
  have hcol : ∑ dp, (if 0 < ev.hist2D dp r then ev.hist2D dp r else 0)
      = ev.radial r := by
    rw [← hPev r]
    refine Finset.sum_congr rfl fun dp _ => ?_
    rcases lt_or_eq_of_le (hnn dp r) with h | h
    · rw [if_pos h]
    · rw [if_neg (by rw [← h]; exact lt_irrefl 0), ← h]
  calc ∑ dp, (EndOfEventFlush run ev).profile2D dp r
      = ∑ dp, (run.profile2D dp r + (if 0 < ev.hist2D dp r then ev.hist2D dp r else 0)) :=
        Finset.sum_congr rfl fun dp _ => endOfEventFlush_profile2D_point run ev dp r
    _ = run.radialProfile r + ev.radial r := by
        rw [Finset.sum_add_distrib, hPrun r, hcol]
    _ = (EndOfEventFlush run ev).radialProfile r := by
        rw [endOfEventFlush_radialProfile_point]
        rcases lt_or_eq_of_le hevr_nn with h | h
        · rw [if_pos h]
        · rw [← h]
          simp

lemma mergeLocalArrays_consistency (master : MasterArrays) (w : RunState)
    (hm : ∀ r, ∑ dp, master.hist2D dp r = master.radial r)
    (hw : ∀ r, ∑ dp, w.profile2D dp r = w.radialProfile r) :
    ∀ r, ∑ dp, (MergeLocalArrays master w).hist2D dp r
      = (MergeLocalArrays master w).radial r := by
  intro r
  simp only [MergeLocalArrays]
  rw [Finset.sum_add_distrib, hm r, hw r]

/-- C10: every operation of the pipeline — per-deposit accumulation,
per-event flush, and worker merge — preserves the invariant that for every
radial bin the column sum of the 2D histogram equals the radial histogram
entry.  The per-deposit step needs no side condition because
`GetDepthBin` clamps every real depth into a valid index and the 2D update
uses the same radial index as the 1D update; the flush step needs the
per-event entries to be non-negative (which accumulation from accepted
deposits guarantees) because the flush skips non-positive entries. -/
theorem C10_2D_1D_consistency :
    (∀ (t : ℝ) (s : EventState) (d : Deposit),
      (∀ r, ∑ dp, s.hist2D dp r = s.radial r) →
      ∀ r, ∑ dp, (AddEnergyDeposit t s d).hist2D dp r
        = (AddEnergyDeposit t s d).radial r) ∧
    (∀ (run : RunState) (ev : EventState),
      (∀ dp r, 0 ≤ ev.hist2D dp r) →
      (∀ r, ∑ dp, ev.hist2D dp r = ev.radial r) →
      (∀ r, ∑ dp, run.profile2D dp r = run.radialProfile r) →
      ∀ r, ∑ dp, (EndOfEventFlush run ev).profile2D dp r
        = (EndOfEventFlush run ev).radialProfile r) ∧
    (∀ (master : MasterArrays) (w : RunState),
      (∀ r, ∑ dp, master.hist2D dp r = master.radial r) →
      (∀ r, ∑ dp, w.profile2D dp r = w.radialProfile r) →
      ∀ r, ∑ dp, (MergeLocalArrays master w).hist2D dp r
        = (MergeLocalArrays master w).radial r) :=
  ⟨addEnergyDeposit_consistency, endOfEventFlush_consistency,
    mergeLocalArrays_consistency⟩

/-- Witness for C10: the three preservation statements applied to concrete
states and a concrete deposit, at radial bin 0. -/
theorem C10_2D_1D_consistency_witness :
    ∑ dp, (AddEnergyDeposit 30 zeroEventState ⟨1, 1, 0, 0⟩).hist2D dp 0
      = (AddEnergyDeposit 30 zeroEventState ⟨1, 1, 0, 0⟩).radial 0 ∧
    ∑ dp, (EndOfEventFlush zeroRunState zeroEventState).profile2D dp 0
      = (EndOfEventFlush zeroRunState zeroEventState).radialProfile 0 ∧
    ∑ dp, (MergeLocalArrays zeroMasterArrays zeroRunState).hist2D dp 0
      = (MergeLocalArrays zeroMasterArrays zeroRunState).radial 0 :=
  ⟨C10_2D_1D_consistency.1 30 zeroEventState ⟨1, 1, 0, 0⟩
      (by simp [zeroEventState]) 0,
   C10_2D_1D_consistency.2.1 zeroRunState zeroEventState
      (by simp [zeroEventState]) (by simp [zeroEventState])
      (by simp [zeroRunState]) 0,
   C10_2D_1D_consistency.2.2 zeroMasterArrays zeroRunState
      (by simp [zeroMasterArrays]) (by simp [zeroRunState]) 0⟩

end TwoDConsistency

section Percentiles

/-- One component of the percentile loop, tracking a single threshold `p`:
the same recursion as `percentileLoop` restricted to the cumulative energy
and one output value. -/
noncomputable def thresholdLoop (hist : Fin NUM_RADIAL_BINS → ℝ)
    (adjT p : ℝ) (i : ℕ) (cum e : ℝ) : ℝ :=
  if h : i < NUM_RADIAL_BINS then
    thresholdLoop hist adjT p (i + 1) (cum + hist ⟨i, h⟩)
      (if p ≤ (cum + hist ⟨i, h⟩) / adjT ∧ e = 0 then GetBinRadius ((i : ℕ) : ℤ)
       else e)
  else e
  termination_by NUM_RADIAL_BINS - i

/-- The cumulative energy `∑_{j ∈ [s, m)} hist[j]` accumulated by the
percentile loop that starts at bin `s`. -/
noncomputable def psum (hist : Fin NUM_RADIAL_BINS → ℝ) (s m : ℕ) : ℝ :=
  ∑ j ∈ Finset.Ico s m, histN hist j

lemma histN_lt {hist : Fin NUM_RADIAL_BINS → ℝ} {j : ℕ} (h : j < NUM_RADIAL_BINS) :
    histN hist j = hist ⟨j, h⟩ := by
  rw [histN, dif_pos h]

lemma histN_nonneg {hist : Fin NUM_RADIAL_BINS → ℝ} (hnn : ∀ i, 0 ≤ hist i)
    (j : ℕ) : 0 ≤ histN hist j := by
  rw [histN]
  split
  · exact hnn _
  · exact le_refl 0

lemma psum_self (hist : Fin NUM_RADIAL_BINS → ℝ) (s : ℕ) : psum hist s s = 0 := by
  rw [psum, Finset.Ico_self, Finset.sum_empty]

lemma psum_succ_bot {hist : Fin NUM_RADIAL_BINS → ℝ} {i m : ℕ} (h : i < m) :
    psum hist i m = histN hist i + psum hist (i + 1) m := by
  rw [psum, psum, Finset.sum_eq_sum_Ico_succ_bot h]

lemma psum_mono {hist : Fin NUM_RADIAL_BINS → ℝ} (hnn : ∀ i, 0 ≤ hist i)
    {s k1 k2 : ℕ} (h : k1 ≤ k2) : psum hist s k1 ≤ psum hist s k2 := by
  rw [psum, psum]
  refine Finset.sum_le_sum_of_subset_of_nonneg (Finset.Ico_subset_Ico le_rfl h)
    fun j _ _ => histN_nonneg hnn j

lemma thresholdLoop_step {hist : Fin NUM_RADIAL_BINS → ℝ} {adjT p : ℝ}
    {i : ℕ} (h : i < NUM_RADIAL_BINS) (cum e : ℝ) :
    thresholdLoop hist adjT p i cum e
      = thresholdLoop hist adjT p (i + 1) (cum + hist ⟨i, h⟩)
          (if p ≤ (cum + hist ⟨i, h⟩) / adjT ∧ e = 0
           then GetBinRadius ((i : ℕ) : ℤ) else e) := by
  rw [thresholdLoop]
  rw [dif_pos h]

lemma thresholdLoop_stop {hist : Fin NUM_RADIAL_BINS → ℝ} {adjT p : ℝ}
    {i : ℕ} (h : ¬ i < NUM_RADIAL_BINS) (cum e : ℝ) :
    thresholdLoop hist adjT p i cum e = e := by
  rw [thresholdLoop]
  rw [dif_neg h]

lemma percentileLoop_step {hist : Fin NUM_RADIAL_BINS → ℝ} {adjT : ℝ}
    {i : ℕ} (h : i < NUM_RADIAL_BINS) (st : ℝ × ℝ × ℝ × ℝ) :
    percentileLoop hist adjT i st
      = percentileLoop hist adjT (i + 1) (stepPercentile hist adjT ⟨i, h⟩ st) := by
  rw [percentileLoop]
  rw [dif_pos h]

lemma percentileLoop_stop {hist : Fin NUM_RADIAL_BINS → ℝ} {adjT : ℝ}
    {i : ℕ} (h : ¬ i < NUM_RADIAL_BINS) (st : ℝ × ℝ × ℝ × ℝ) :
    percentileLoop hist adjT i st = st := by
  rw [percentileLoop]
  rw [dif_neg h]

lemma percentileLoop_components (hist : Fin NUM_RADIAL_BINS → ℝ) (adjT : ℝ) :
    ∀ n i : ℕ, NUM_RADIAL_BINS ≤ i + n → ∀ c a b d : ℝ,
      (percentileLoop hist adjT i (c, a, b, d)).2.1
          = thresholdLoop hist adjT 0.5 i c a ∧
      (percentileLoop hist adjT i (c, a, b, d)).2.2.1
          = thresholdLoop hist adjT 0.9 i c b ∧
      (percentileLoop hist adjT i (c, a, b, d)).2.2.2
          = thresholdLoop hist adjT 0.99 i c d := by
  intro n
  induction n with
  | zero =>
    intro i h c a b d
    have hni : ¬ i < NUM_RADIAL_BINS := by omega
    rw [percentileLoop_stop hni, thresholdLoop_stop hni,
      thresholdLoop_stop hni, thresholdLoop_stop hni]
    exact ⟨rfl, rfl, rfl⟩
  | succ n ih =>
    intro i h c a b d
    by_cases hi : i < NUM_RADIAL_BINS
    · rw [percentileLoop_step hi, thresholdLoop_step hi, thresholdLoop_step hi,
        thresholdLoop_step hi]
      simp only [stepPercentile, Fin.val_mk]
      exact ih (i + 1) (by omega) _ _ _ _
    · rw [percentileLoop_stop hi, thresholdLoop_stop hi,
        thresholdLoop_stop hi, thresholdLoop_stop hi]
      exact ⟨rfl, rfl, rfl⟩

lemma thresholdLoop_ne_zero (hist : Fin NUM_RADIAL_BINS → ℝ) (adjT p : ℝ) :
    ∀ n i : ℕ, NUM_RADIAL_BINS ≤ i + n → ∀ c e : ℝ, e ≠ 0 →
      thresholdLoop hist adjT p i c e = e := by
  intro n
  induction n with
  | zero =>
    intro i h c e he
    rw [thresholdLoop_stop (by omega : ¬ i < NUM_RADIAL_BINS)]
  | succ n ih =>
    intro i h c e he
    by_cases hi : i < NUM_RADIAL_BINS
    · rw [thresholdLoop_step hi, if_neg (fun hh => he hh.2)]
      exact ih (i + 1) (by omega) _ _ he
    · rw [thresholdLoop_stop hi]

lemma thresholdLoop_hits (hist : Fin NUM_RADIAL_BINS → ℝ) (adjT p : ℝ) :
    ∀ n i : ℕ, NUM_RADIAL_BINS ≤ i + n → ∀ (c : ℝ) (k : ℕ),
      i ≤ k → k < NUM_RADIAL_BINS →
      p ≤ (c + psum hist i (k + 1)) / adjT →
      (∀ j, i ≤ j → j < k → ¬ p ≤ (c + psum hist i (j + 1)) / adjT) →
      thresholdLoop hist adjT p i c 0 = GetBinRadius ((k : ℕ) : ℤ) := by
  intro n
  induction n with
  | zero =>
    intro i h c k hik hk _ _
    omega
  | succ n ih =>
    intro i h c k hik hk hhit hmin
    have hi : i < NUM_RADIAL_BINS := lt_of_le_of_lt hik hk
    rw [thresholdLoop_step hi]
    have hpsum1 : psum hist i (i + 1) = hist ⟨i, hi⟩ := by
      rw [psum_succ_bot (by omega), psum_self, add_zero, histN_lt hi]
    rcases eq_or_lt_of_le hik with rfl | hlt
    · have hcond : p ≤ (c + hist ⟨i, hi⟩) / adjT ∧ (0 : ℝ) = 0 := by
        refine ⟨?_, rfl⟩
        rw [← hpsum1]
        exact hhit
      rw [if_pos hcond]
      refine thresholdLoop_ne_zero hist adjT p (n) (i + 1) (by omega) _ _ ?_
      exact ne_of_gt (getBinRadius_pos (Int.natCast_nonneg _) (by exact_mod_cast hi))
    · have hcond : ¬ (p ≤ (c + hist ⟨i, hi⟩) / adjT ∧ (0 : ℝ) = 0) := by
        rintro ⟨hc, -⟩
        refine hmin i le_rfl hlt ?_
        rw [hpsum1]
        exact hc
      rw [if_neg hcond]
      refine ih (i + 1) (by omega) (c + hist ⟨i, hi⟩) k hlt hk ?_ ?_
      · have : c + hist ⟨i, hi⟩ + psum hist (i + 1) (k + 1)
            = c + psum hist i (k + 1) := by
          rw [psum_succ_bot (by omega : i < k + 1), histN_lt hi]
          ring
        rw [this]
        exact hhit
      · intro j hij hjk hple
        refine hmin j (by omega) hjk ?_
        have : c + psum hist i (j + 1)
            = c + hist ⟨i, hi⟩ + psum hist (i + 1) (j + 1) := by
          rw [psum_succ_bot (by omega : i < j + 1), histN_lt hi]
          ring
        rw [this]
        exact hple

lemma startBin_le (hist : Fin NUM_RADIAL_BINS → ℝ) : startBin hist ≤ 1 := by
  rw [startBin]
  split_ifs <;> omega

lemma psum_startBin (hist : Fin NUM_RADIAL_BINS → ℝ) :
    psum hist (startBin hist) NUM_RADIAL_BINS = adjustedTotal hist := by
  rw [adjustedTotal, startBin, psum]
  split_ifs with h
  · rfl
  · rw [show Finset.Ico 0 NUM_RADIAL_BINS = Finset.range NUM_RADIAL_BINS by
      rw [Finset.range_eq_Ico]]
    rw [← Fin.sum_univ_eq_sum_range (fun j => histN hist j) NUM_RADIAL_BINS,
      totalRadialEnergy]
    refine Finset.sum_congr rfl fun i _ => ?_
    rw [histN_lt i.isLt, Fin.eta]

/-- `k` is the smallest bin index at or after the walk start whose
cumulative energy fraction reaches the threshold `p`. -/
def leastHit (hist : Fin NUM_RADIAL_BINS → ℝ) (p : ℝ) (k : ℕ) : Prop :=
  startBin hist ≤ k ∧ k < NUM_RADIAL_BINS ∧
  p ≤ psum hist (startBin hist) (k + 1) / adjustedTotal hist ∧
  ∀ j, startBin hist ≤ j → j < k →
    ¬ p ≤ psum hist (startBin hist) (j + 1) / adjustedTotal hist

open Classical in
lemma exists_leastHit (hist : Fin NUM_RADIAL_BINS → ℝ)
    (hpos : 0 < adjustedTotal hist) {p : ℝ} (hp : p ≤ 1) :
    ∃ k, leastHit hist p k := by
  have hex : ∃ k, startBin hist ≤ k ∧ k < NUM_RADIAL_BINS ∧
      p ≤ psum hist (startBin hist) (k + 1) / adjustedTotal hist := by
    refine ⟨NUM_RADIAL_BINS - 1, ?_, ?_, ?_⟩
    · have := startBin_le hist
      simp only [NUM_RADIAL_BINS]
      omega
    · simp only [NUM_RADIAL_BINS]
      omega
    · have h150 : NUM_RADIAL_BINS - 1 + 1 = NUM_RADIAL_BINS := by
        simp only [NUM_RADIAL_BINS]
      rw [h150, psum_startBin, div_self (ne_of_gt hpos)]
      exact hp
  refine ⟨Nat.find hex, (Nat.find_spec hex).1, (Nat.find_spec hex).2.1,
    (Nat.find_spec hex).2.2, ?_⟩
  intro j hsj hjk hple
  have hj150 : j < NUM_RADIAL_BINS := lt_trans hjk (Nat.find_spec hex).2.1
  exact Nat.find_min hex hjk ⟨hsj, hj150, hple⟩

lemma leastHit_mono {hist : Fin NUM_RADIAL_BINS → ℝ} {p q : ℝ} (hpq : p ≤ q)
    {kp kq : ℕ} (hp : leastHit hist p kp) (hq : leastHit hist q kq) :
    kp ≤ kq := by
  by_contra hcon
  push_neg at hcon
  exact hp.2.2.2 kq hq.1 hcon (le_trans hpq hq.2.2.1)

lemma summaryPercentiles_eq (hist : Fin NUM_RADIAL_BINS → ℝ)
    (hpos : 0 < adjustedTotal hist) :
    summaryPercentiles hist =
      (thresholdLoop hist (adjustedTotal hist) 0.5 (startBin hist) 0 0,
       thresholdLoop hist (adjustedTotal hist) 0.9 (startBin hist) 0 0,
       thresholdLoop hist (adjustedTotal hist) 0.99 (startBin hist) 0 0) := by
  rw [summaryPercentiles, if_pos hpos]
  obtain ⟨h1, h2, h3⟩ := percentileLoop_components hist (adjustedTotal hist)
    NUM_RADIAL_BINS (startBin hist) (by omega) 0 0 0 0
  rw [h1, h2, h3]

lemma thresholdLoop_of_leastHit (hist : Fin NUM_RADIAL_BINS → ℝ) {p : ℝ}
    {k : ℕ} (hk : leastHit hist p k) :
    thresholdLoop hist (adjustedTotal hist) p (startBin hist) 0 0
      = GetBinRadius ((k : ℕ) : ℤ) := by
  refine thresholdLoop_hits hist (adjustedTotal hist) p NUM_RADIAL_BINS
    (startBin hist) (by omega) 0 k hk.1 hk.2.1 ?_ ?_
  · rw [zero_add]
    exact hk.2.2.1
  · intro j hsj hjk
    rw [zero_add]
    exact hk.2.2.2 j hsj hjk

/-- C7: the percentile statistics of the summary.  The spike note is
written exactly when the total is positive and bin 0 holds strictly more
than 80% of it; in that case the walk starts at bin 1 over the total
excluding bin 0, otherwise at bin 0 over the full total; under
non-degeneracy (`adjustedTotal > 0`) each of e50/e90/e99 is the bin-center
radius of the smallest-radius bin at which the cumulative fraction first
reaches 0.5/0.9/0.99, and consequently `e50 ≤ e90 ≤ e99`. -/
theorem C7_percentile_statistics (hist : Fin NUM_RADIAL_BINS → ℝ)
    (hpos : 0 < adjustedTotal hist) :
    ((SaveSummary hist).spikeNote ↔
      0 < totalRadialEnergy hist ∧ (0.8 : ℝ) < hist 0 / totalRadialEnergy hist) ∧
    (skipFirstBin hist → startBin hist = 1 ∧
      adjustedTotal hist = ∑ j ∈ Finset.Ico 1 NUM_RADIAL_BINS, histN hist j) ∧
    (¬ skipFirstBin hist → startBin hist = 0 ∧
      adjustedTotal hist = totalRadialEnergy hist) ∧
    (∃ k, leastHit hist 0.5 k ∧ (SaveSummary hist).e50 = GetBinRadius ((k : ℕ) : ℤ)) ∧
    (∃ k, leastHit hist 0.9 k ∧ (SaveSummary hist).e90 = GetBinRadius ((k : ℕ) : ℤ)) ∧
    (∃ k, leastHit hist 0.99 k ∧ (SaveSummary hist).e99 = GetBinRadius ((k : ℕ) : ℤ)) ∧
    (SaveSummary hist).e50 ≤ (SaveSummary hist).e90 ∧
    (SaveSummary hist).e90 ≤ (SaveSummary hist).e99 := by
  obtain ⟨k5, hk5⟩ := exists_leastHit hist hpos (by norm_num : (0.5 : ℝ) ≤ 1)
  obtain ⟨k9, hk9⟩ := exists_leastHit hist hpos (by norm_num : (0.9 : ℝ) ≤ 1)
  obtain ⟨k99, hk99⟩ := exists_leastHit hist hpos (by norm_num : (0.99 : ℝ) ≤ 1)
  have hsum := summaryPercentiles_eq hist hpos
  have he50 : (SaveSummary hist).e50 = GetBinRadius ((k5 : ℕ) : ℤ) := by
    show (summaryPercentiles hist).1 = _
    rw [hsum]
    exact thresholdLoop_of_leastHit hist hk5
  have he90 : (SaveSummary hist).e90 = GetBinRadius ((k9 : ℕ) : ℤ) := by
    show (summaryPercentiles hist).2.1 = _
    rw [hsum]
    exact thresholdLoop_of_leastHit hist hk9
  have he99 : (SaveSummary hist).e99 = GetBinRadius ((k99 : ℕ) : ℤ) := by
    show (summaryPercentiles hist).2.2 = _
    rw [hsum]
    exact thresholdLoop_of_leastHit hist hk99
  have h59 : k5 ≤ k9 := leastHit_mono (by norm_num) hk5 hk9
  have h999 : k9 ≤ k99 := leastHit_mono (by norm_num) hk9 hk99
  refine ⟨Iff.rfl, ?_, ?_, ⟨k5, hk5, he50⟩, ⟨k9, hk9, he90⟩, ⟨k99, hk99, he99⟩, ?_, ?_⟩
  · intro h
    rw [startBin, if_pos h, adjustedTotal, if_pos h]
    exact ⟨rfl, rfl⟩
  · intro h
    rw [startBin, if_neg h, adjustedTotal, if_neg h]
    exact ⟨rfl, rfl⟩
  · rw [he50, he90]
    exact getBinRadius_mono (Int.natCast_nonneg _) (by exact_mod_cast h59)
      (by exact_mod_cast hk9.2.1)
  · rw [he90, he99]
    exact getBinRadius_mono (Int.natCast_nonneg _) (by exact_mod_cast h999)
      (by exact_mod_cast hk99.2.1)

/-- Witness for C7 on the all-ones histogram (no spike, positive total). -/
theorem C7_percentile_statistics_witness :
    (0 : ℝ) < adjustedTotal (fun _ => 1) ∧
    (SaveSummary (fun _ => 1)).e50 ≤ (SaveSummary (fun _ => 1)).e90 := by
  have htot : totalRadialEnergy (fun _ => (1 : ℝ)) = 150 := by
    rw [totalRadialEnergy]
    simp [NUM_RADIAL_BINS]
  have hns : ¬ skipFirstBin (fun _ => (1 : ℝ)) := by
    rw [skipFirstBin, htot]
    norm_num
  have hadj : adjustedTotal (fun _ => (1 : ℝ)) = 150 := by
    rw [adjustedTotal, if_neg hns, htot]
  have h := C7_percentile_statistics (fun _ => 1) (by rw [hadj]; norm_num)
  exact ⟨by rw [hadj]; norm_num, h.2.2.2.2.2.2.1⟩

end Percentiles

end EBeamSim
